import Mathlib

/-!
Verification development for the routine `wlsqva` in
`array_processing/algorithms/wlsqva.py`.

The Python routine estimates the slowness vector of a planar wavefront
crossing a sensor array from pairwise cross-correlation delays and a
weighted least-squares fit.  The definitions below are a shallow embedding
of that routine over the real numbers: numpy arrays become functions
`Nat to Real` together with explicit size parameters, the uninitialized
`np.empty` cross-correlation buffer becomes an explicit `junk` input, and
Python exceptions become an `Except` value.
-/

open scoped Classical
open Matrix

namespace ArrayProcessing

/-- Exception kinds raised by the validation cell of `wlsqva`
(`IndexError` for shape mismatches, `ValueError` for least-squares
consistency failures). -/
inductive PyErr
  | indexError
  | valueError
  deriving DecidableEq

/-- `sum(wgt != 0)`: number of nonzero entries of the weight list. -/
noncomputable def countNonzero : List ℝ → ℕ
  | [] => 0
  | x :: xs => (if x ≠ 0 then 1 else 0) + countNonzero xs

/-- The input error-checking cell of `wlsqva`, in source order:
`data.shape[1] != rij.shape[1]` (IndexError), then
`rij.shape[1] < rij.shape[0]+1` (ValueError), then
`rij.shape[0] < 2 or rij.shape[0] > 3` (ValueError), then, when `wgt`
is given, `len(wgt) != nTraces` (IndexError) and
`sum(wgt != 0) < dim+1` (ValueError). -/
noncomputable def validate (nData n dim : ℕ) (wgt : Option (List ℝ)) :
    Except PyErr Unit :=
  if nData ≠ n then .error .indexError
  else if n < dim + 1 then .error .valueError
  else if dim < 2 ∨ 3 < dim then .error .valueError
  else
    match wgt with
    | none => .ok ()
    | some w =>
      if w.length ≠ nData then .error .indexError
      else if countNonzero w < dim + 1 then .error .valueError
      else .ok ()

/-- The list comprehension
`[(i, j) for i in range(n-1) for j in range(i+1, n)]` that enumerates the
unordered sensor pairs of `wlsqva` (the weight component `wgt[i]*wgt[j]`
of each tuple is recovered by `Wv` below). -/
def pairs (n : ℕ) : List (ℕ × ℕ) :=
  (List.range (n - 1)).flatMap fun i =>
    (List.range' (i + 1) (n - (i + 1))).map fun j => (i, j)

/-- First sensor index of the k-th enumerated pair. -/
def pairI (n k : ℕ) : ℕ := ((pairs n).getD k (0, 0)).1

/-- Second sensor index of the k-th enumerated pair. -/
def pairJ (n k : ℕ) : ℕ := ((pairs n).getD k (0, 0)).2

/-- Effective per-sensor weight function: the all-ones default when
`wgt is None`, otherwise the entries of the given list. -/
def wgtv : Option (List ℝ) → ℕ → ℝ
  | none => fun _ => 1
  | some w => fun i => w.getD i 0

/-- `N_w`: number of sensors with nonzero weight (`nTraces` when `wgt`
is omitted, `sum(wgt != 0)` otherwise). -/
noncomputable def NwOf (nData : ℕ) : Option (List ℝ) → ℕ
  | none => nData
  | some w => countNonzero w

/-- `sum(trace * trace)`: energy of a trace of `m` samples. -/
noncomputable def energy (m : ℕ) (a : ℕ → ℝ) : ℝ :=
  ∑ t ∈ Finset.range m, a t * a t

/-- `np.correlate(a, v, mode='full')` for two traces of `m` samples:
entry `l` (for `l < 2*m - 1`) is the sum over sample indices `t` of
`a t * v (t + (m-1) - l)`, restricted to in-range indices of `v`. -/
noncomputable def corrFull (m : ℕ) (a v : ℕ → ℝ) (l : ℕ) : ℝ :=
  ∑ t ∈ Finset.range m,
    if l ≤ t + (m - 1) ∧ t ≤ l then a t * v (t + (m - 1) - l) else 0

/-- All arguments of one call of `wlsqva`, plus the contents `junk` of the
pre-allocated (`np.empty`) cross-correlation buffer, which the routine
reads back at columns it never wrote. -/
structure In where
  m : ℕ
  nData : ℕ
  n : ℕ
  dim : ℕ
  data : ℕ → ℕ → ℝ
  rij : ℕ → ℕ → ℝ
  hz : ℝ
  wgt : Option (List ℝ)
  junk : ℕ → ℕ → ℝ

/-- `N = xij.shape[1]`: number of unique inter-sensor pairs. -/
def NN (P : In) : ℕ := (pairs P.n).length

/-- `W[k][k] = wgt[i]*wgt[j]`: the diagonal of the generalized weight
array for the k-th pair. -/
def Wv (P : In) (k : ℕ) : ℝ :=
  wgtv P.wgt (pairI P.n k) * wgtv P.wgt (pairJ P.n k)

/-- `xij[:, k] = rij[:, i] - rij[:, j]`: the co-array column of the
k-th pair (row index `d`). -/
def xijM (P : In) (d k : ℕ) : ℝ :=
  P.rij d (pairI P.n k) - P.rij d (pairJ P.n k)

/-- Column `k` of the cross-correlation matrix `cij`: computed (with
MATLAB-style `coeff` normalization by the square root of the product of
the two trace energies) only when `W[k][k]` is nonzero; otherwise the
column keeps the uninitialized buffer contents `junk`. -/
noncomputable def cij (P : In) (k l : ℕ) : ℝ :=
  if Wv P k ≠ 0 then
    corrFull P.m (fun t => P.data t (pairI P.n k))
        (fun t => P.data t (pairJ P.n k)) l /
      Real.sqrt (energy P.m (fun t => P.data t (pairI P.n k)) *
        energy P.m (fun t => P.data t (pairJ P.n k)))
  else P.junk k l

/-- Maximum of `f 0, ..., f k` (net effect of `cij.max(axis=0)` on one
column). -/
noncomputable def foldMax (f : ℕ → ℝ) : ℕ → ℝ
  | 0 => f 0
  | k + 1 => max (foldMax f k) (f (k + 1))

/-- Index of the first occurrence of the maximum of `f 0, ..., f k`
(`np.argmax` on one column). -/
noncomputable def argmaxA (f : ℕ → ℝ) : ℕ → ℕ
  | 0 => 0
  | k + 1 => if foldMax f k < f (k + 1) then k + 1 else argmaxA f k

/-- `cmax`: per-column maxima of `cij`, overwritten with `0` at every
pair whose generalized weight vanishes. -/
noncomputable def cmaxOut (P : In) (k : ℕ) : ℝ :=
  if Wv P k = 0 then 0 else foldMax (cij P k) (2 * P.m - 2)

/-- `delay = np.argmax(cij, axis=0) + 1` (MATLAB-esque +1 offset). -/
noncomputable def delayN (P : In) (k : ℕ) : ℕ :=
  argmaxA (cij P k) (2 * P.m - 2) + 1

/-- `tau = (m - delay)/hz`: the raw per-pair time-delay vector. -/
noncomputable def tauv (P : In) (k : ℕ) : ℝ :=
  ((P.m : ℝ) - (delayN P k : ℝ)) / P.hz

/-- `tau_p = W @ tau`: the weighted delay vector (this is the `tau`
value the routine returns). -/
noncomputable def taup (P : In) (k : ℕ) : ℝ := Wv P k * tauv P k

/-- `X_p = W @ xij.T`: entry at row `k` (pair) and column `a`
(spatial coordinate). -/
def X_p (P : In) (k a : ℕ) : ℝ := Wv P k * xijM P a k

/-- `X_p.T @ X_p`: the normal-equations (Gram) matrix. -/
def Gram (P : In) : Matrix (Fin P.dim) (Fin P.dim) ℝ :=
  Matrix.of fun a b => ∑ k ∈ Finset.range (NN P), X_p P k a * X_p P k b

/-- `X_p.T @ tau_p`. -/
noncomputable def XtTau (P : In) : Fin P.dim → ℝ := fun a =>
  ∑ k ∈ Finset.range (NN P), X_p P k a * taup P k

/-- `s_p = np.linalg.inv(X_p.T@X_p) @ X_p.T @ tau_p`: the weighted
least-squares slowness vector. -/
noncomputable def sVec (P : In) : Fin P.dim → ℝ := (Gram P)⁻¹ *ᵥ XtTau P

/-- The slowness vector as a zero-padded function on `Nat`. -/
noncomputable def sFun (P : In) (a : ℕ) : ℝ :=
  if h : a < P.dim then sVec P ⟨a, h⟩ else 0

/-- `np.linalg.norm(s, 2)` of the first `d` entries. -/
noncomputable def norm2 (d : ℕ) (s : ℕ → ℝ) : ℝ :=
  Real.sqrt (∑ a ∈ Finset.range d, s a * s a)

/-- `vel = 1/np.linalg.norm(s_p, 2)`. -/
noncomputable def velOut (P : In) : ℝ := 1 / norm2 P.dim (sFun P)

/-- `np.arctan2 y x` (four-quadrant arctangent, numpy conventions on
the axes and at the origin). -/
noncomputable def atan2 (y x : ℝ) : ℝ :=
  if 0 < x then Real.arctan (y / x)
  else if x < 0 then
    (if 0 ≤ y then Real.arctan (y / x) + Real.pi
     else Real.arctan (y / x) - Real.pi)
  else if 0 < y then Real.pi / 2
  else if y < 0 then -(Real.pi / 2)
  else 0

/-- Python float `a % b` (result carries the sign of `b`). -/
noncomputable def npMod (a b : ℝ) : ℝ := a - b * (⌊a / b⌋ : ℤ)

/-- `az = (np.arctan2(s_p[0], s_p[1]) * 180 / np.pi - 360) % 360`:
the azimuth conversion applied to the slowness components. -/
noncomputable def az2 (s0 s1 : ℝ) : ℝ :=
  npMod (atan2 s0 s1 * 180 / Real.pi - 360) 360

/-- The azimuth output of the routine. -/
noncomputable def azOut (P : In) : ℝ := az2 (sFun P 0) (sFun P 1)

/-- The elevation angle appended for `dim == 3`. -/
noncomputable def elevOut (P : In) : Option ℝ :=
  if P.dim = 3 then
    some (atan2 (sFun P 2) (norm2 2 (sFun P)) * 180 / Real.pi)
  else none

/-- `N_p = N_w*(N_w-1)/2` (Python true division, a float). -/
noncomputable def NpR (P : In) : ℝ :=
  (NwOf P.nData P.wgt : ℝ) * ((NwOf P.nData P.wgt : ℝ) - 1) / 2

/-- `(X_p @ np.linalg.inv(X_p.T @ X_p) @ X_p.T)[k, l]`. -/
noncomputable def projM (P : In) (k l : ℕ) : ℝ :=
  ∑ a : Fin P.dim, ∑ b : Fin P.dim,
    X_p P k a * (Gram P)⁻¹ a b * X_p P l b

/-- `tau_p @ (np.eye(N) - X_p @ inv(X_p.T@X_p) @ X_p.T) @ tau_p`. -/
noncomputable def quadForm (P : In) : ℝ :=
  ∑ k ∈ Finset.range (NN P), ∑ l ∈ Finset.range (NN P),
    taup P k * ((if k = l then (1 : ℝ) else 0) - projM P k l) * taup P l

/-- `sig_tau = np.sqrt(np.abs(quadform / (N_p - dim)))`. -/
noncomputable def sigTauOut (P : In) : ℝ :=
  Real.sqrt |quadForm P / (NpR P - (P.dim : ℝ))|

/-- The tuple returned by `wlsqva`. -/
structure Out where
  vel : ℝ
  az : ℝ
  elev : Option ℝ
  tau : ℕ → ℝ
  cmax : ℕ → ℝ
  sig_tau : ℝ
  s : ℕ → ℝ
  xij : ℕ → ℕ → ℝ

/-- The outputs of one (validation-passing) call of `wlsqva`. -/
noncomputable def runOut (P : In) : Out where
  vel := velOut P
  az := azOut P
  elev := elevOut P
  tau := taup P
  cmax := cmaxOut P
  sig_tau := sigTauOut P
  s := sFun P
  xij := fun d k => xijM P d k

/-- One full call of `wlsqva`: validation, then the computation. -/
noncomputable def run (P : In) : Except PyErr Out :=
  (validate P.nData P.n P.dim P.wgt).map fun _ => runOut P

/-- Strict lexicographic order on sensor-index pairs: the order in which
the source's nested loops emit them. -/
def pairLex (p q : ℕ × ℕ) : Prop := p.1 < q.1 ∨ (p.1 = q.1 ∧ p.2 < q.2)

theorem pairLex_antisymm : ∀ p q : ℕ × ℕ, pairLex p q → pairLex q p → p = q := by
  rintro ⟨a, b⟩ ⟨c, d⟩ (h | ⟨h1, h2⟩) (g | ⟨g1, g2⟩) <;> simp_all <;> omega

theorem pairLex_ne : ∀ p q : ℕ × ℕ, pairLex p q → p ≠ q := by
  rintro ⟨a, b⟩ ⟨c, d⟩ (h | ⟨h1, h2⟩) <;> simp_all <;> omega

theorem mem_pairs (n : ℕ) (p : ℕ × ℕ) : p ∈ pairs n ↔ p.1 < p.2 ∧ p.2 < n := by
  obtain ⟨i, j⟩ := p
  simp only [pairs, List.mem_flatMap, List.mem_range, List.mem_map, List.mem_range'_1]
  constructor
  · rintro ⟨a, ha, b, hb, hab⟩
    injection hab with h1 h2
    subst h1; subst h2
    omega
  · rintro ⟨h1, h2⟩
    exact ⟨i, by omega, j, by omega, rfl⟩

theorem pairs_sorted (n : ℕ) : (pairs n).Pairwise pairLex := by
  rw [pairs, List.pairwise_flatMap]
  constructor
  · intro a _
    rw [List.pairwise_map, List.pairwise_iff_getElem]
    intro i j hi hj hij
    simp only [List.length_range'] at hi hj
    simp only [List.getElem_range'_1]
    exact Or.inr ⟨rfl, by omega⟩
  · rw [List.pairwise_iff_getElem]
    intro i j hi hj hij
    simp only [List.length_range] at hi hj
    intro x hx y hy
    simp only [List.mem_map, List.mem_range'_1, List.getElem_range] at hx hy
    obtain ⟨jx, hjx, rfl⟩ := hx
    obtain ⟨jy, hjy, rfl⟩ := hy
    exact Or.inl (by omega)

theorem pairs_length (n : ℕ) : (pairs n).length = n * (n - 1) / 2 := by
  have hb : (pairs n).length = ∑ i ∈ Finset.range (n - 1), (n - (i + 1)) := by
    rw [pairs, List.length_flatMap]
    simp only [Function.comp_def, List.length_map, List.length_range']
    rfl
  cases n with
  | zero => simp [hb]
  | succ t =>
    rw [hb]
    have hr : ∑ i ∈ Finset.range t, (t + 1 - (i + 1)) = ∑ j ∈ Finset.range t, (j + 1) := by
      rw [← Finset.sum_range_reflect (fun j => j + 1) t]
      exact Finset.sum_congr rfl fun i hi => by
        simp only [Finset.mem_range] at hi; omega
    have h2 : ∑ j ∈ Finset.range t, (j + 1) = ∑ j ∈ Finset.range (t + 1), j := by
      rw [Finset.sum_range_succ' (fun j => j) t]
      simp
    simp only [Nat.succ_sub_one]
    rw [hr, h2, Finset.sum_range_id]
    simp

theorem sorted_unique (l₁ l₂ : List (ℕ × ℕ)) (h₁ : l₁.Pairwise pairLex)
    (h₂ : l₂.Pairwise pairLex) (hm : ∀ p, p ∈ l₁ ↔ p ∈ l₂) : l₁ = l₂ := by
  haveI : IsAntisymm (ℕ × ℕ) pairLex := ⟨pairLex_antisymm⟩
  have hperm : l₁.Perm l₂ := by
    rw [List.perm_ext_iff_of_nodup]
    · exact hm
    · exact h₁.imp (fun h => pairLex_ne _ _ h)
    · exact h₂.imp (fun h => pairLex_ne _ _ h)
  exact hperm.eq_of_sorted (fun a b _ _ => pairLex_antisymm a b) h₁ h₂

theorem pair_mem (n k : ℕ) (hk : k < (pairs n).length) :
    pairI n k < pairJ n k ∧ pairJ n k < n := by
  have : (pairI n k, pairJ n k) ∈ pairs n := by
    rw [pairI, pairJ]
    have hg : (pairs n).getD k (0, 0) = (pairs n)[k] := List.getD_eq_getElem _ _ hk
    rw [hg]
    exact List.getElem_mem hk
  exact (mem_pairs n _).1 this

theorem pair_lt (n k : ℕ) (hn : 0 < n) : pairI n k < n ∧ pairJ n k < n := by
  by_cases hk : k < (pairs n).length
  · have h := pair_mem n k hk
    omega
  · rw [pairI, pairJ, List.getD_eq_default _ _ (by omega)]
    exact ⟨hn, hn⟩

theorem atan2_pos_zero (y : ℝ) (hy : 0 < y) : atan2 y 0 = Real.pi / 2 := by
  rw [atan2, if_neg (lt_irrefl 0), if_neg (lt_irrefl 0), if_pos hy]

theorem atan2_zero_pos (x : ℝ) (hx : 0 < x) : atan2 0 x = 0 := by
  rw [atan2, if_pos hx]
  simp [Real.arctan_zero]

theorem az2_north (y : ℝ) (hy : 0 < y) : az2 y 0 = 90 := by
  rw [az2, atan2_pos_zero y hy, npMod]
  have h1 : Real.pi / 2 * 180 / Real.pi - 360 = -270 := by
    have hpi := Real.pi_ne_zero
    field_simp
    ring
  rw [h1]
  have h2 : ⌊(-270 : ℝ) / 360⌋ = -1 := by
    rw [Int.floor_eq_iff]
    norm_num
  rw [h2]
  norm_num

theorem az2_east (x : ℝ) (hx : 0 < x) : az2 0 x = 0 := by
  rw [az2, atan2_zero_pos x hx, npMod]
  have h1 : (0 : ℝ) * 180 / Real.pi - 360 = -360 := by
    simp
  rw [h1]
  have h2 : ⌊(-360 : ℝ) / 360⌋ = -1 := by
    norm_num
  rw [h2]
  norm_num


theorem cij_eq_of_ne (P : In) (junkN : ℕ → ℕ → ℝ) (k : ℕ) (h : Wv P k ≠ 0) :
    cij { P with junk := junkN } k = cij P k := by
  funext l
  have hW : Wv { P with junk := junkN } k = Wv P k := rfl
  rw [cij, cij, hW, if_pos h, if_pos h]

theorem taup_junk (P : In) (junkN : ℕ → ℕ → ℝ) :
    taup { P with junk := junkN } = taup P := by
  funext k
  have hW : Wv { P with junk := junkN } k = Wv P k := rfl
  by_cases h : Wv P k = 0
  · rw [taup, taup, hW, h, zero_mul, zero_mul]
  · rw [taup, taup, hW, tauv, tauv, delayN, delayN, cij_eq_of_ne P junkN k h]

theorem cmax_junk (P : In) (junkN : ℕ → ℕ → ℝ) :
    cmaxOut { P with junk := junkN } = cmaxOut P := by
  funext k
  have hW : Wv { P with junk := junkN } k = Wv P k := rfl
  by_cases h : Wv P k = 0
  · rw [cmaxOut, cmaxOut, hW, if_pos h, if_pos h]
  · rw [cmaxOut, cmaxOut, hW, if_neg h, if_neg h, cij_eq_of_ne P junkN k h]

theorem runOut_junk (P : In) (junkN : ℕ → ℕ → ℝ) :
    runOut { P with junk := junkN } = runOut P := by
  have htau := taup_junk P junkN
  have hNN : NN { P with junk := junkN } = NN P := rfl
  have hXp : X_p { P with junk := junkN } = X_p P := rfl
  have hGram : Gram { P with junk := junkN } = Gram P := rfl
  have hxij : xijM { P with junk := junkN } = xijM P := rfl
  have hNpR : NpR { P with junk := junkN } = NpR P := rfl
  have hproj : projM { P with junk := junkN } = projM P := rfl
  have hdim : ({ P with junk := junkN } : In).dim = P.dim := rfl
  have hXt : XtTau { P with junk := junkN } = XtTau P := by
    funext a
    rw [XtTau, XtTau, htau, hNN]
    exact Finset.sum_congr rfl fun k _ => by rw [hXp]
  have hs : sVec { P with junk := junkN } = sVec P := by
    rw [sVec, sVec, hXt, hGram]
  have hsf : sFun { P with junk := junkN } = sFun P := by
    funext a
    simp only [sFun, hs]
  have hq : quadForm { P with junk := junkN } = quadForm P := by
    rw [quadForm, quadForm, htau, hNN, hproj]
  have hsig : sigTauOut { P with junk := junkN } = sigTauOut P := by
    rw [sigTauOut, sigTauOut, hq, hNpR, hdim]
  rw [runOut, runOut]
  simp only [velOut, azOut, elevOut, hsf, htau, cmax_junk P junkN, hsig, hxij, hdim]

theorem validate_ok_iff (nData n dim : ℕ) (wgt : Option (List ℝ)) :
    validate nData n dim wgt = .ok () ↔
      (nData = n ∧ dim + 1 ≤ n ∧ 2 ≤ dim ∧ dim ≤ 3 ∧
        ∀ w, wgt = some w → w.length = n ∧ dim + 1 ≤ countNonzero w) := by
  rcases wgt with _ | w <;> rw [validate] <;> split_ifs <;> simp_all <;> omega

theorem run_ok_iff (P : In) :
    (∃ o, run P = .ok o) ↔ validate P.nData P.n P.dim P.wgt = .ok () := by
  rw [run]
  cases hv : validate P.nData P.n P.dim P.wgt with
  | ok u => cases u; simp [Except.map]
  | error e => simp [Except.map]

theorem run_err_iff (P : In) (e : PyErr) :
    run P = .error e ↔ validate P.nData P.n P.dim P.wgt = .error e := by
  rw [run]
  cases hv : validate P.nData P.n P.dim P.wgt with
  | ok u => simp [Except.map]
  | error e2 => simp [Except.map]

theorem validate_err_shape (nData n dim : ℕ) (wgt : Option (List ℝ)) (h : nData ≠ n) :
    validate nData n dim wgt = .error .indexError := by
  rw [validate.eq_def, if_pos h]

theorem validate_err_sensors (nData n dim : ℕ) (wgt : Option (List ℝ)) (h1 : nData = n)
    (h2 : n < dim + 1) : validate nData n dim wgt = .error .valueError := by
  rw [validate.eq_def, if_neg (by omega), if_pos h2]

theorem validate_err_dim (nData n dim : ℕ) (wgt : Option (List ℝ)) (h1 : nData = n)
    (h2 : dim + 1 ≤ n) (h3 : dim < 2 ∨ 3 < dim) :
    validate nData n dim wgt = .error .valueError := by
  rw [validate.eq_def, if_neg (by omega), if_neg (by omega), if_pos h3]

theorem validate_err_wlen (nData n dim : ℕ) (w : List ℝ) (h1 : nData = n)
    (h2 : dim + 1 ≤ n) (h3 : 2 ≤ dim) (h4 : dim ≤ 3) (h5 : w.length ≠ n) :
    validate nData n dim (some w) = .error .indexError := by
  rw [validate, if_neg (by omega), if_neg (by omega), if_neg (by omega)]
  exact if_pos (by omega)

theorem validate_err_wcount (nData n dim : ℕ) (w : List ℝ) (h1 : nData = n)
    (h2 : dim + 1 ≤ n) (h3 : 2 ≤ dim) (h4 : dim ≤ 3) (h5 : w.length = n)
    (h6 : countNonzero w < dim + 1) :
    validate nData n dim (some w) = .error .valueError := by
  rw [validate, if_neg (by omega), if_neg (by omega), if_neg (by omega)]
  rw [if_neg (by omega), if_pos h6]

theorem foldMax_zero (f : ℕ → ℝ) : foldMax f 0 = f 0 := rfl

theorem foldMax_succ (f : ℕ → ℝ) (k : ℕ) :
    foldMax f (k + 1) = max (foldMax f k) (f (k + 1)) := rfl

theorem argmaxA_zero (f : ℕ → ℝ) : argmaxA f 0 = 0 := rfl

theorem argmaxA_succ (f : ℕ → ℝ) (k : ℕ) :
    argmaxA f (k + 1) = if foldMax f k < f (k + 1) then k + 1 else argmaxA f k := rfl

theorem le_foldMax (f : ℕ → ℝ) : ∀ k l, l ≤ k → f l ≤ foldMax f k := by
  intro k
  induction k with
  | zero => intro l hl; interval_cases l; exact le_refl _
  | succ k ih =>
    intro l hl
    rcases Nat.lt_or_ge l (k + 1) with h | h
    · exact le_trans (ih l (by omega)) (le_max_left _ _)
    · have : l = k + 1 := by omega
      subst this
      exact le_max_right _ _

theorem argmaxA_le (f : ℕ → ℝ) : ∀ k, argmaxA f k ≤ k := by
  intro k
  induction k with
  | zero => exact le_refl 0
  | succ k ih =>
    rw [argmaxA_succ]
    split_ifs
    · exact le_refl _
    · omega

theorem apply_argmaxA (f : ℕ → ℝ) : ∀ k, f (argmaxA f k) = foldMax f k := by
  intro k
  induction k with
  | zero => rfl
  | succ k ih =>
    rw [argmaxA_succ, foldMax_succ]
    split_ifs with h
    · exact (max_eq_right (le_of_lt h)).symm
    · rw [ih]
      exact (max_eq_left (not_lt.mp h)).symm

theorem argmaxA_first (f : ℕ → ℝ) :
    ∀ k l, l ≤ k → foldMax f k ≤ f l → argmaxA f k ≤ l := by
  intro k
  induction k with
  | zero => intro l _ _; exact Nat.zero_le l
  | succ k ih =>
    intro l hl hfl
    rw [argmaxA_succ]
    rw [foldMax_succ] at hfl
    split_ifs with h
    · rcases Nat.lt_or_ge l (k + 1) with hcase | hcase
      · exfalso
        have h1 : f l ≤ foldMax f k := le_foldMax f k l (by omega)
        have h2 : f (k + 1) ≤ f l := le_trans (le_max_right _ _) hfl
        linarith
      · omega
    · rcases Nat.lt_or_ge l (k + 1) with hcase | hcase
      · exact ih l (by omega) (le_trans (le_max_left _ _) hfl)
      · exact le_trans (argmaxA_le f k) (by omega)

theorem cij_of_unit_energy (P : In) (k l : ℕ) (hW : Wv P k ≠ 0)
    (hE : energy P.m (fun t => P.data t (pairI P.n k)) *
      energy P.m (fun t => P.data t (pairJ P.n k)) = 1) :
    cij P k l = corrFull P.m (fun t => P.data t (pairI P.n k))
      (fun t => P.data t (pairJ P.n k)) l := by
  rw [cij, if_pos hW, hE, Real.sqrt_one, div_one]

/-- Concrete three-sensor 2D test input: impulse traces whose pairwise
delays make the least-squares slowness land exactly on `(1, 0)`
(a unit slowness pointing north). -/
abbrev In1 : In where
  m := 3
  nData := 3
  n := 3
  dim := 2
  data := fun t i =>
    if i = 0 then (if t = 1 then 1 else 0)
    else if i = 1 then (if t = 0 then 1 else 0)
    else (if t = 1 then 1 else 0)
  rij := fun d i =>
    if d = 0 then (if i = 1 then 1 else 0) else (if i = 2 then 1 else 0)
  hz := 1
  wgt := none
  junk := fun _ _ => 0

theorem In1_pairs : pairI In1.n 0 = 0 ∧ pairJ In1.n 0 = 1 ∧ pairI In1.n 1 = 0 ∧
    pairJ In1.n 1 = 2 ∧ pairI In1.n 2 = 1 ∧ pairJ In1.n 2 = 2 := by
  refine ⟨?_, ?_, ?_, ?_, ?_, ?_⟩ <;> decide

theorem In1_energy : ∀ i, i < 3 → energy In1.m (fun t => In1.data t i) = 1 := by
  intro i hi
  interval_cases i <;>
    norm_num [energy, In1, Finset.sum_range_succ]

theorem In1_Wv (k : ℕ) : Wv In1 k = 1 := by
  rw [Wv]
  show wgtv none _ * wgtv none _ = 1
  norm_num [wgtv]

theorem In1_cij0 : ∀ l, cij In1 0 l =
    corrFull In1.m (fun t => In1.data t 0) (fun t => In1.data t 1) l := by
  intro l
  have h := cij_of_unit_energy In1 0 l (by rw [In1_Wv]; norm_num)
    (by rw [In1_pairs.1, In1_pairs.2.1,
          In1_energy 0 (by norm_num), In1_energy 1 (by norm_num)]; norm_num)
  rw [h, In1_pairs.1, In1_pairs.2.1]

theorem In1_col0_vals :
    cij In1 0 0 = 0 ∧ cij In1 0 1 = 0 ∧ cij In1 0 2 = 0 ∧ cij In1 0 3 = 1 ∧
      cij In1 0 4 = 0 := by
  refine ⟨?_, ?_, ?_, ?_, ?_⟩ <;>
    rw [In1_cij0] <;>
    norm_num [corrFull, In1, Finset.sum_range_succ]

theorem In1_cij1 : ∀ l, cij In1 1 l =
    corrFull In1.m (fun t => In1.data t 0) (fun t => In1.data t 2) l := by
  intro l
  have h := cij_of_unit_energy In1 1 l (by rw [In1_Wv]; norm_num)
    (by rw [In1_pairs.2.2.1, In1_pairs.2.2.2.1,
          In1_energy 0 (by norm_num), In1_energy 2 (by norm_num)]; norm_num)
  rw [h, In1_pairs.2.2.1, In1_pairs.2.2.2.1]

theorem In1_cij2 : ∀ l, cij In1 2 l =
    corrFull In1.m (fun t => In1.data t 1) (fun t => In1.data t 2) l := by
  intro l
  have h := cij_of_unit_energy In1 2 l (by rw [In1_Wv]; norm_num)
    (by rw [In1_pairs.2.2.2.2.1, In1_pairs.2.2.2.2.2,
          In1_energy 1 (by norm_num), In1_energy 2 (by norm_num)]; norm_num)
  rw [h, In1_pairs.2.2.2.2.1, In1_pairs.2.2.2.2.2]

theorem In1_col1_vals :
    cij In1 1 0 = 0 ∧ cij In1 1 1 = 0 ∧ cij In1 1 2 = 1 ∧ cij In1 1 3 = 0 ∧
      cij In1 1 4 = 0 := by
  refine ⟨?_, ?_, ?_, ?_, ?_⟩ <;>
    rw [In1_cij1] <;>
    norm_num [corrFull, In1, Finset.sum_range_succ]

theorem In1_col2_vals :
    cij In1 2 0 = 0 ∧ cij In1 2 1 = 1 ∧ cij In1 2 2 = 0 ∧ cij In1 2 3 = 0 ∧
      cij In1 2 4 = 0 := by
  refine ⟨?_, ?_, ?_, ?_, ?_⟩ <;>
    rw [In1_cij2] <;>
    norm_num [corrFull, In1, Finset.sum_range_succ]

theorem In1_argmax0 : argmaxA (cij In1 0) (2 * In1.m - 2) = 3 := by
  obtain ⟨v0, v1, v2, v3, v4⟩ := In1_col0_vals
  have hf0 : foldMax (cij In1 0) 0 = 0 := by rw [foldMax_zero, v0]
  have hf1 : foldMax (cij In1 0) 1 = 0 := by
    rw [show (1:ℕ) = 0 + 1 from rfl, foldMax_succ, hf0, v1]; norm_num
  have hf2 : foldMax (cij In1 0) 2 = 0 := by
    rw [show (2:ℕ) = 1 + 1 from rfl, foldMax_succ, hf1, v2]; norm_num
  have hf3 : foldMax (cij In1 0) 3 = 1 := by
    rw [show (3:ℕ) = 2 + 1 from rfl, foldMax_succ, hf2, v3]; norm_num
  show argmaxA (cij In1 0) 4 = 3
  rw [show (4:ℕ) = 3 + 1 from rfl, argmaxA_succ, hf3, v4, if_neg (by norm_num),
    show (3:ℕ) = 2 + 1 from rfl, argmaxA_succ, hf2, v3, if_pos (by norm_num)]

theorem In1_argmax1 : argmaxA (cij In1 1) (2 * In1.m - 2) = 2 := by
  obtain ⟨v0, v1, v2, v3, v4⟩ := In1_col1_vals
  have hf0 : foldMax (cij In1 1) 0 = 0 := by rw [foldMax_zero, v0]
  have hf1 : foldMax (cij In1 1) 1 = 0 := by
    rw [show (1:ℕ) = 0 + 1 from rfl, foldMax_succ, hf0, v1]; norm_num
  have hf2 : foldMax (cij In1 1) 2 = 1 := by
    rw [show (2:ℕ) = 1 + 1 from rfl, foldMax_succ, hf1, v2]; norm_num
  have hf3 : foldMax (cij In1 1) 3 = 1 := by
    rw [show (3:ℕ) = 2 + 1 from rfl, foldMax_succ, hf2, v3]; norm_num
  show argmaxA (cij In1 1) 4 = 2
  rw [show (4:ℕ) = 3 + 1 from rfl, argmaxA_succ, hf3, v4, if_neg (by norm_num),
    show (3:ℕ) = 2 + 1 from rfl, argmaxA_succ, hf2, v3, if_neg (by norm_num),
    show (2:ℕ) = 1 + 1 from rfl, argmaxA_succ, hf1, v2, if_pos (by norm_num)]

theorem In1_argmax2 : argmaxA (cij In1 2) (2 * In1.m - 2) = 1 := by
  obtain ⟨v0, v1, v2, v3, v4⟩ := In1_col2_vals
  have hf0 : foldMax (cij In1 2) 0 = 0 := by rw [foldMax_zero, v0]
  have hf1 : foldMax (cij In1 2) 1 = 1 := by
    rw [show (1:ℕ) = 0 + 1 from rfl, foldMax_succ, hf0, v1]; norm_num
  have hf2 : foldMax (cij In1 2) 2 = 1 := by
    rw [show (2:ℕ) = 1 + 1 from rfl, foldMax_succ, hf1, v2]; norm_num
  have hf3 : foldMax (cij In1 2) 3 = 1 := by
    rw [show (3:ℕ) = 2 + 1 from rfl, foldMax_succ, hf2, v3]; norm_num
  show argmaxA (cij In1 2) 4 = 1
  rw [show (4:ℕ) = 3 + 1 from rfl, argmaxA_succ, hf3, v4, if_neg (by norm_num),
    show (3:ℕ) = 2 + 1 from rfl, argmaxA_succ, hf2, v3, if_neg (by norm_num),
    show (2:ℕ) = 1 + 1 from rfl, argmaxA_succ, hf1, v2, if_neg (by norm_num),
    show (1:ℕ) = 0 + 1 from rfl, argmaxA_succ, hf0, v1, if_pos (by norm_num)]

theorem In1_taup : taup In1 0 = -1 ∧ taup In1 1 = 0 ∧ taup In1 2 = 1 := by
  refine ⟨?_, ?_, ?_⟩
  · rw [taup, tauv, delayN, In1_argmax0, In1_Wv]
    norm_num [In1]
  · rw [taup, tauv, delayN, In1_argmax1, In1_Wv]
    norm_num [In1]
  · rw [taup, tauv, delayN, In1_argmax2, In1_Wv]
    norm_num [In1]

theorem In1_xij : (∀ d, xijM In1 d 0 = if d = 0 then -1 else 0) ∧
    (∀ d, xijM In1 d 1 = if d = 0 then 0 else -1) ∧
    (∀ d, xijM In1 d 2 = if d = 0 then 1 else -1) := by
  refine ⟨fun d => ?_, fun d => ?_, fun d => ?_⟩
  · rw [xijM, In1_pairs.1, In1_pairs.2.1]
    by_cases hd : d = 0 <;> simp [In1, hd]
  · rw [xijM, In1_pairs.2.2.1, In1_pairs.2.2.2.1]
    by_cases hd : d = 0 <;> simp [In1, hd]
  · rw [xijM, In1_pairs.2.2.2.2.1, In1_pairs.2.2.2.2.2]
    by_cases hd : d = 0 <;> simp [In1, hd]

theorem In1_NN : NN In1 = 3 := by decide

theorem In1_Gram : Gram In1 = !![2, -1; -1, 2] := by
  obtain ⟨hx0, hx1, hx2⟩ := In1_xij
  ext a b
  fin_cases a <;> fin_cases b <;>
    (rw [Gram, Matrix.of_apply, In1_NN,
      Finset.sum_range_succ, Finset.sum_range_succ, Finset.sum_range_succ,
      Finset.sum_range_zero]
     simp only [X_p, In1_Wv, hx0, hx1, hx2]
     norm_num)

theorem In1_XtTau : XtTau In1 = fun a : Fin In1.dim => if (a : ℕ) = 0 then (2 : ℝ) else -1 := by
  obtain ⟨hx0, hx1, hx2⟩ := In1_xij
  obtain ⟨ht0, ht1, ht2⟩ := In1_taup
  funext a
  fin_cases a <;>
    (rw [XtTau, In1_NN,
      Finset.sum_range_succ, Finset.sum_range_succ, Finset.sum_range_succ,
      Finset.sum_range_zero]
     simp only [X_p, In1_Wv, hx0, hx1, hx2, ht0, ht1, ht2]
     norm_num)

theorem In1_sVec : sVec In1 = fun a : Fin In1.dim => if (a : ℕ) = 0 then (1 : ℝ) else 0 := by
  have hinv : (!![2, -1; -1, 2] : Matrix (Fin 2) (Fin 2) ℝ)⁻¹ =
      !![2/3, 1/3; 1/3, 2/3] := by
    rw [Matrix.inv_def, Matrix.det_fin_two_of, Matrix.adjugate_fin_two_of,
      Ring.inverse_eq_inv']
    norm_num
  funext a
  rw [sVec, In1_Gram, In1_XtTau, hinv]
  fin_cases a <;>
    simp [Matrix.mulVec, Matrix.dotProduct, Fin.sum_univ_two] <;>
    norm_num

theorem In1_sFun : sFun In1 0 = 1 ∧ sFun In1 1 = 0 := by
  constructor
  · rw [sFun, dif_pos (show (0 : ℕ) < In1.dim by norm_num), In1_sVec]
    norm_num
  · rw [sFun, dif_pos (show (1 : ℕ) < In1.dim by norm_num), In1_sVec]
    norm_num

theorem In1_azOut : azOut In1 = 90 := by
  rw [azOut, In1_sFun.1, In1_sFun.2]
  exact az2_north 1 (by norm_num)

theorem countNonzero_replicate_one (n : ℕ) :
    countNonzero (List.replicate n (1 : ℝ)) = n := by
  induction n with
  | zero => rfl
  | succ t ih =>
    rw [List.replicate_succ]
    rw [countNonzero, ih, if_pos (by norm_num)]
    omega

theorem wgtv_replicate_one (n i : ℕ) (hi : i < n) :
    wgtv (some (List.replicate n (1 : ℝ))) i = 1 := by
  show (List.replicate n (1 : ℝ)).getD i 0 = 1
  rw [List.getD_eq_getElem _ _ (by simpa using hi)]
  simp

/-- Core of C8: with the checks already passed, replacing an omitted `wgt`
by an explicit all-ones list leaves every intermediate quantity equal. -/
theorem runOut_ones (P : In) (hwgt : P.wgt = none) (h1 : P.nData = P.n)
    (h2 : P.dim + 1 ≤ P.n) (h3 : 2 ≤ P.dim) :
    runOut { P with wgt := some (List.replicate P.n 1) } = runOut P := by
  have hn : 0 < P.n := by omega
  have hxij : xijM { P with wgt := some (List.replicate P.n 1) } = xijM P := rfl
  have hNN : NN { P with wgt := some (List.replicate P.n 1) } = NN P := rfl
  have hWv : Wv { P with wgt := some (List.replicate P.n 1) } = Wv P := by
    funext k
    have hp := pair_lt P.n k hn
    show wgtv (some (List.replicate P.n 1)) (pairI P.n k) *
        wgtv (some (List.replicate P.n 1)) (pairJ P.n k) =
      wgtv P.wgt (pairI P.n k) * wgtv P.wgt (pairJ P.n k)
    rw [wgtv_replicate_one P.n _ hp.1, wgtv_replicate_one P.n _ hp.2, hwgt]
    norm_num [wgtv]
  have hcij : cij { P with wgt := some (List.replicate P.n 1) } = cij P := by
    funext k l
    rw [cij, cij, hWv]
  have htau : taup { P with wgt := some (List.replicate P.n 1) } = taup P := by
    funext k
    rw [taup, taup, hWv, tauv, tauv, delayN, delayN, hcij]
  have hcmax : cmaxOut { P with wgt := some (List.replicate P.n 1) } = cmaxOut P := by
    funext k
    rw [cmaxOut, cmaxOut, hWv, hcij]
  have hXp : X_p { P with wgt := some (List.replicate P.n 1) } = X_p P := by
    funext k a
    rw [X_p, X_p, hWv, hxij]
  have hGram : Gram { P with wgt := some (List.replicate P.n 1) } = Gram P := by
    rw [Gram, Gram, hXp, hNN]
  have hXt : XtTau { P with wgt := some (List.replicate P.n 1) } = XtTau P := by
    funext a
    rw [XtTau, XtTau, htau, hXp, hNN]
  have hs : sVec { P with wgt := some (List.replicate P.n 1) } = sVec P := by
    rw [sVec, sVec, hXt, hGram]
  have hsf : sFun { P with wgt := some (List.replicate P.n 1) } = sFun P := by
    funext a
    simp only [sFun, hs]
  have hNw : NwOf ({ P with wgt := some (List.replicate P.n 1) } : In).nData
      ({ P with wgt := some (List.replicate P.n 1) } : In).wgt
      = NwOf P.nData P.wgt := by
    show NwOf P.nData (some (List.replicate P.n 1)) = NwOf P.nData P.wgt
    rw [hwgt, NwOf, NwOf, countNonzero_replicate_one, h1]
  have hNpR : NpR { P with wgt := some (List.replicate P.n 1) } = NpR P := by
    rw [NpR, NpR]
    rw [show NwOf ({ P with wgt := some (List.replicate P.n 1) } : In).nData
      ({ P with wgt := some (List.replicate P.n 1) } : In).wgt
      = NwOf P.nData P.wgt from hNw]
  have hproj : projM { P with wgt := some (List.replicate P.n 1) } = projM P := by
    funext k l
    rw [projM, projM, hXp, hGram]
  have hq : quadForm { P with wgt := some (List.replicate P.n 1) } = quadForm P := by
    rw [quadForm, quadForm, htau, hproj, hNN]
  have hsig : sigTauOut { P with wgt := some (List.replicate P.n 1) } = sigTauOut P := by
    rw [sigTauOut, sigTauOut, hq, hNpR]
  rw [runOut, runOut]
  simp only [velOut, azOut, elevOut, hsf, htau, hcmax, hsig, hs, hxij]

theorem smul_inv_field {d : ℕ} (hd : d ≠ 0) (k : ℝ) (hk : k ≠ 0)
    (A : Matrix (Fin d) (Fin d) ℝ) : (k • A)⁻¹ = k⁻¹ • A⁻¹ := by
  rw [Matrix.inv_def, Matrix.inv_def, Matrix.det_smul, Matrix.adjugate_smul,
    Ring.inverse_eq_inv', smul_smul, smul_smul]
  congr 1
  rcases Nat.exists_eq_succ_of_ne_zero hd with ⟨t, rfl⟩
  rw [Fintype.card_fin, Nat.succ_sub_one, pow_succ, mul_inv, mul_inv]
  calc (k ^ t)⁻¹ * k⁻¹ * A.det⁻¹ * k ^ t
      = ((k ^ t)⁻¹ * k ^ t) * (k⁻¹ * A.det⁻¹) := by ring
    _ = k⁻¹ * A.det⁻¹ := by rw [inv_mul_cancel₀ (pow_ne_zero t hk), one_mul]

theorem wgtv_map_mul (w : List ℝ) (c : ℝ) (i : ℕ) :
    wgtv (some (w.map fun x => c * x)) i = c * wgtv (some w) i := by
  show (w.map fun x => c * x).getD i 0 = c * w.getD i 0
  by_cases hi : i < w.length
  · rw [List.getD_eq_getElem _ _ (by simpa using hi), List.getD_eq_getElem _ _ hi]
    simp
  · rw [List.getD_eq_default _ _ (by simpa using not_lt.mp hi),
      List.getD_eq_default _ _ (not_lt.mp hi)]
    norm_num

/-- Core of C10: scaling all weights by `c > 0` scales `W` by `c^2`,
leaves the correlation stage untouched, and cancels in the slowness. -/
theorem scaling_core (P : In) (w : List ℝ) (c : ℝ) (hw : P.wgt = some w)
    (hc : c ≠ 0) (hd : P.dim ≠ 0) :
    (∀ k, Wv { P with wgt := some (w.map fun x => c * x) } k = c ^ 2 * Wv P k)
    ∧ cij { P with wgt := some (w.map fun x => c * x) } = cij P
    ∧ (∀ k, taup { P with wgt := some (w.map fun x => c * x) } k
        = c ^ 2 * taup P k)
    ∧ sVec { P with wgt := some (w.map fun x => c * x) } = sVec P := by
  have hWv : ∀ k, Wv { P with wgt := some (w.map fun x => c * x) } k
      = c ^ 2 * Wv P k := by
    intro k
    show wgtv (some (w.map fun x => c * x)) (pairI P.n k) *
        wgtv (some (w.map fun x => c * x)) (pairJ P.n k)
      = c ^ 2 * (wgtv P.wgt (pairI P.n k) * wgtv P.wgt (pairJ P.n k))
    rw [wgtv_map_mul, wgtv_map_mul, hw]
    ring
  have hcij : cij { P with wgt := some (w.map fun x => c * x) } = cij P := by
    funext k l
    by_cases h : Wv P k = 0
    · rw [cij, cij, hWv k, h, mul_zero]
    · rw [cij, cij, if_pos (by rw [hWv k]; exact mul_ne_zero (pow_ne_zero 2 hc) h),
        if_pos h]
  have htauv : tauv { P with wgt := some (w.map fun x => c * x) } = tauv P := by
    funext k
    rw [tauv, tauv, delayN, delayN, hcij]
  have htaup : ∀ k, taup { P with wgt := some (w.map fun x => c * x) } k
      = c ^ 2 * taup P k := by
    intro k
    rw [taup, taup, hWv k, htauv]
    ring
  have hxij : xijM { P with wgt := some (w.map fun x => c * x) } = xijM P := rfl
  have hNN : NN { P with wgt := some (w.map fun x => c * x) } = NN P := rfl
  have hXp : ∀ k a, X_p { P with wgt := some (w.map fun x => c * x) } k a
      = c ^ 2 * X_p P k a := by
    intro k a
    rw [X_p, X_p, hWv k, hxij]
    ring
  have hGram : Gram { P with wgt := some (w.map fun x => c * x) }
      = (c ^ 2 * c ^ 2) • Gram P := by
    ext a b
    rw [Gram, Gram]
    rw [Matrix.smul_apply, Matrix.of_apply, Matrix.of_apply, hNN, smul_eq_mul,
      Finset.mul_sum]
    apply Finset.sum_congr rfl
    intro k _
    rw [hXp, hXp]
    ring
  have hXt : XtTau { P with wgt := some (w.map fun x => c * x) }
      = (c ^ 2 * c ^ 2) • XtTau P := by
    funext a
    rw [XtTau, Pi.smul_apply, XtTau, hNN, smul_eq_mul, Finset.mul_sum]
    apply Finset.sum_congr rfl
    intro k _
    rw [hXp, htaup]
    ring
  have hs : sVec { P with wgt := some (w.map fun x => c * x) } = sVec P := by
    rw [sVec, sVec, hXt, hGram,
      smul_inv_field hd (c ^ 2 * c ^ 2) (mul_ne_zero (pow_ne_zero 2 hc) (pow_ne_zero 2 hc)) (Gram P)]
    rw [Matrix.mulVec_smul, Matrix.smul_mulVec_assoc, smul_smul,
      mul_inv_cancel₀ (mul_ne_zero (pow_ne_zero 2 hc) (pow_ne_zero 2 hc)), one_smul]
  exact ⟨hWv, hcij, htaup, hs⟩

theorem Wv_zero_of_pair (P : In) (t k : ℕ) (ht : wgtv P.wgt t = 0)
    (hk : pairI P.n k = t ∨ pairJ P.n k = t) : Wv P k = 0 := by
  rw [Wv]
  rcases hk with h | h
  · rw [h, ht, zero_mul]
  · rw [h, ht, mul_zero]

/-- Core of C6: replacing the data column of a zero-weight sensor changes
no weighted delay, hence neither the slowness vector. -/
theorem excluded_core (P : In) (dataN : ℕ → ℕ → ℝ) (t : ℕ)
    (ht : wgtv P.wgt t = 0)
    (hd : ∀ l c, c ≠ t → dataN l c = P.data l c) :
    (∀ k, taup { P with data := dataN } k = taup P k)
    ∧ sVec { P with data := dataN } = sVec P := by
  have hWv : Wv { P with data := dataN } = Wv P := rfl
  have hNN : NN { P with data := dataN } = NN P := rfl
  have hxij : xijM { P with data := dataN } = xijM P := rfl
  have hXp : X_p { P with data := dataN } = X_p P := rfl
  have hGram : Gram { P with data := dataN } = Gram P := rfl
  have htaup : ∀ k, taup { P with data := dataN } k = taup P k := by
    intro k
    by_cases h : Wv P k = 0
    · rw [taup, taup, hWv, h, zero_mul, zero_mul]
    · have hi : wgtv P.wgt (pairI P.n k) ≠ 0 := by
        intro h0
        exact h (by rw [Wv, h0, zero_mul])
      have hj : wgtv P.wgt (pairJ P.n k) ≠ 0 := by
        intro h0
        exact h (by rw [Wv, h0, mul_zero])
      have hit : pairI P.n k ≠ t := fun he => hi (he ▸ ht)
      have hjt : pairJ P.n k ≠ t := fun he => hj (he ▸ ht)
      have hfi : (fun s => dataN s (pairI P.n k)) =
          (fun s => P.data s (pairI P.n k)) := by
        funext s
        exact hd s _ hit
      have hfj : (fun s => dataN s (pairJ P.n k)) =
          (fun s => P.data s (pairJ P.n k)) := by
        funext s
        exact hd s _ hjt
      have hcol : cij { P with data := dataN } k = cij P k := by
        funext l
        rw [cij, cij, hWv, if_pos h, if_pos h]
        show corrFull P.m (fun s => dataN s (pairI P.n k))
            (fun s => dataN s (pairJ P.n k)) l /
            Real.sqrt (energy P.m (fun s => dataN s (pairI P.n k)) *
              energy P.m (fun s => dataN s (pairJ P.n k)))
          = _
        rw [hfi, hfj]
      rw [taup, taup, hWv, tauv, tauv, delayN, delayN, hcol]
  have hXt : XtTau { P with data := dataN } = XtTau P := by
    funext a
    rw [XtTau, XtTau, hNN, hXp]
    exact Finset.sum_congr rfl fun k _ => by rw [htaup k]
  have hs : sVec { P with data := dataN } = sVec P := by
    rw [sVec, sVec, hXt, hGram]
  exact ⟨htaup, hs⟩

instance : DecidableRel pairLex := fun p q =>
  inferInstanceAs (Decidable (p.1 < q.1 ∨ (p.1 = q.1 ∧ p.2 < q.2)))

/-- Concrete valid base input: three sensors, all-ones traces, omitted
weights. -/
abbrev In0 : In where
  m := 3
  nData := 3
  n := 3
  dim := 2
  data := fun _ _ => 1
  rij := fun _ _ => 0
  hz := 1
  wgt := none
  junk := fun _ _ => 0

/-- `In1` with explicit non-unit weights `[2, 1, 1]`. -/
abbrev In2 : In := { In1 with wgt := some [2, 1, 1] }

/-- `In1` with explicit unit weights `[1, 1, 1]` (minimum sensor count
for 2D with every weight nonzero). -/
abbrev In3 : In := { In1 with wgt := some [1, 1, 1] }

/-- Four-sensor valid input for the pair-enumeration witness. -/
abbrev In5 : In := { In0 with nData := 4, n := 4 }

/-- Four-sensor 2D input with sensor 2 excluded by a zero weight. -/
abbrev In6 : In where
  m := 2
  nData := 4
  n := 4
  dim := 2
  data := fun _ _ => 1
  rij := fun _ _ => 0
  hz := 1
  wgt := some [1, 1, 0, 1]
  junk := fun _ _ => 0

theorem In2_Wv0 : Wv In2 0 = 2 := by
  rw [Wv, show pairI In2.n 0 = 0 by decide, show pairJ In2.n 0 = 1 by decide]
  norm_num [wgtv, List.getD]

theorem In2_cij0 : cij In2 0 = cij In1 0 := by
  funext l
  rw [cij, cij, if_pos (by rw [In2_Wv0]; norm_num), if_pos (by rw [In1_Wv]; norm_num)]

theorem In2_delay0 : delayN In2 0 = 4 := by
  rw [delayN, In2_cij0, show (2 * In2.m - 2 : ℕ) = 2 * In1.m - 2 from rfl,
    In1_argmax0]

theorem In2_taup0 : taup In2 0 = -2 := by
  rw [taup, tauv, In2_delay0, In2_Wv0]
  norm_num

theorem In3_Nw : NwOf In3.nData In3.wgt = 3 := by
  show countNonzero [1, 1, 1] = 3
  norm_num [countNonzero]

theorem In3_NpR : NpR In3 = 3 := by
  rw [NpR, In3_Nw]
  norm_num

/-- C1 (counterexample): the claim predicts az near 0 (or 360) when the
least-squares slowness is `[s0, 0]` with `s0 > 0`.  On the concrete valid
input `In1` the slowness solution is exactly `(1, 0)` (pointing north),
yet the azimuth line of the code returns 90, nowhere near 0 or 360. -/
theorem claim_C1_counterexample :
    validate In1.nData In1.n In1.dim In1.wgt = Except.ok ()
    ∧ sFun In1 0 = 1 ∧ sFun In1 1 = 0 ∧ azOut In1 = 90
    ∧ ¬(azOut In1 < 45 ∨ 315 < azOut In1) := by
  refine ⟨?_, In1_sFun.1, In1_sFun.2, In1_azOut, ?_⟩
  · rw [validate.eq_def, if_neg (by norm_num), if_neg (by norm_num),
      if_neg (by norm_num)]
  · rw [In1_azOut]
    norm_num

/-- C1 (amended): under the azimuth conversion of the source,
`az = (atan2(s[0], s[1])*180/pi - 360) mod 360`, a slowness pointing
purely north (`s = [s0, 0]`, `s0 > 0`) yields az = 90 and a slowness
pointing purely east (`s = [0, s0]`, `s0 > 0`) yields az = 0 — the
swap of the two cases claimed by the spec. -/
theorem claim_C1_azimuth (P : In) :
    (0 < sFun P 0 → sFun P 1 = 0 → azOut P = 90)
    ∧ (sFun P 0 = 0 → 0 < sFun P 1 → azOut P = 0) := by
  constructor
  · intro h0 h1
    rw [azOut, h1]
    exact az2_north _ h0
  · intro h0 h1
    rw [azOut, h0]
    exact az2_east _ h1

theorem claim_C1_azimuth_witness : azOut In1 = 90 :=
  (claim_C1_azimuth In1).1 (by rw [In1_sFun.1]; norm_num) In1_sFun.2

/-- C2 (counterexample): on the valid input `In2` (weights `[2,1,1]`),
the returned `tau` entry for the first pair is `-2`, while the per-pair
arrival-time difference `(m - delay)/hz` is `-1`: the returned vector IS
scaled by the pairwise weights (the routine returns `tau_p = W @ tau`). -/
theorem claim_C2_counterexample :
    validate In2.nData In2.n In2.dim In2.wgt = Except.ok ()
    ∧ (runOut In2).tau 0 = -2
    ∧ ((In2.m : ℝ) - (delayN In2 0 : ℝ)) / In2.hz = -1
    ∧ (runOut In2).tau 0 ≠ ((In2.m : ℝ) - (delayN In2 0 : ℝ)) / In2.hz := by
  refine ⟨?_, In2_taup0, ?_, ?_⟩
  · rw [validate.eq_def, if_neg (by norm_num), if_neg (by norm_num),
      if_neg (by norm_num)]
    show (if ([2, 1, 1] : List ℝ).length ≠ 3 then _ else _) = _
    rw [if_neg (by norm_num), if_neg (by norm_num [countNonzero])]
  · rw [In2_delay0]
    norm_num
  · have h2 : ((In2.m : ℝ) - (delayN In2 0 : ℝ)) / In2.hz = -1 := by
      rw [In2_delay0]
      norm_num
    rw [h2, show (runOut In2).tau 0 = taup In2 0 from rfl, In2_taup0]
    norm_num

/-- C2 (amended): the returned `tau` is the weighted vector
`tau_p = W @ tau`: entry `k` is `wgt[i]*wgt[j] * (m - delay_k)/hz`, where
`delay_k` is the 0-based argmax (first occurrence of the column maximum
of the normalized cross-correlation) plus one. -/
theorem claim_C2_weighted_tau (P : In) (k : ℕ) :
    (runOut P).tau k = Wv P k * (((P.m : ℝ) - (delayN P k : ℝ)) / P.hz)
    ∧ delayN P k = argmaxA (cij P k) (2 * P.m - 2) + 1
    ∧ cij P k (argmaxA (cij P k) (2 * P.m - 2)) = foldMax (cij P k) (2 * P.m - 2)
    ∧ (∀ l, l ≤ 2 * P.m - 2 → cij P k l ≤ foldMax (cij P k) (2 * P.m - 2))
    ∧ (∀ l, l ≤ 2 * P.m - 2 → foldMax (cij P k) (2 * P.m - 2) ≤ cij P k l →
        argmaxA (cij P k) (2 * P.m - 2) ≤ l) :=
  ⟨rfl, rfl, apply_argmaxA _ _, fun l hl => le_foldMax _ _ l hl,
    fun l hl hfl => argmaxA_first _ _ l hl hfl⟩

theorem claim_C2_weighted_tau_witness :
    (runOut In2).tau 0 = Wv In2 0 * (((In2.m : ℝ) - (delayN In2 0 : ℝ)) / In2.hz)
    ∧ cij In2 0 0 ≤ foldMax (cij In2 0) (2 * In2.m - 2) :=
  ⟨(claim_C2_weighted_tau In2 0).1,
    (claim_C2_weighted_tau In2 0).2.2.2.1 0 (Nat.zero_le _)⟩

/-- C3 (counterexample): with exactly the minimum sensors (n = dim+1 = 3
in 2D) and all weights nonzero, `N_p = N_w(N_w-1)/2 = 3` is NOT equal to
`dim = 2`; the `sig_tau` divisor `N_p - dim` equals 1, so no
division-by-zero arises and `sig_tau` is an ordinary real value. -/
theorem claim_C3_counterexample :
    validate In3.nData In3.n In3.dim In3.wgt = Except.ok ()
    ∧ In3.n = In3.dim + 1
    ∧ NwOf In3.nData In3.wgt = 3
    ∧ NpR In3 = 3
    ∧ (In3.dim : ℝ) = 2
    ∧ NpR In3 - (In3.dim : ℝ) = 1
    ∧ NpR In3 ≠ (In3.dim : ℝ) := by
  refine ⟨?_, rfl, In3_Nw, In3_NpR, by norm_num, ?_, ?_⟩
  · rw [validate.eq_def, if_neg (by norm_num), if_neg (by norm_num),
      if_neg (by norm_num)]
    show (if ([1, 1, 1] : List ℝ).length ≠ 3 then _ else _) = _
    rw [if_neg (by norm_num), if_neg (by norm_num [countNonzero])]
  · rw [In3_NpR]
    norm_num
  · rw [In3_NpR]
    norm_num

/-- C3 (amended): for every input passing validation (dim at least 2 and
at least dim+1 nonzero-weight sensors), `N_p` exceeds `dim` by at least 1,
so the `sig_tau` divisor `N_p - dim` is positive: the division-by-zero
condition `N_p == dim` claimed for minimal arrays can never occur. -/
theorem claim_C3_dof (P : In) (h3 : 2 ≤ P.dim)
    (hNw : P.dim + 1 ≤ NwOf P.nData P.wgt) :
    1 ≤ NpR P - (P.dim : ℝ) ∧ NpR P ≠ (P.dim : ℝ) := by
  have hw1 : 1 ≤ NwOf P.nData P.wgt := by omega
  have key : 2 * P.dim + 2 ≤ NwOf P.nData P.wgt * (NwOf P.nData P.wgt - 1) := by
    have h1 : (P.dim + 1) * P.dim ≤ NwOf P.nData P.wgt * (NwOf P.nData P.wgt - 1) :=
      Nat.mul_le_mul hNw (by omega)
    have h2 : 2 * P.dim + 2 ≤ (P.dim + 1) * P.dim := by nlinarith
    omega
  have hcast : (2 * (P.dim : ℝ) + 2) ≤
      (NwOf P.nData P.wgt : ℝ) * ((NwOf P.nData P.wgt : ℝ) - 1) := by
    have h4 : ((NwOf P.nData P.wgt : ℝ) - 1) = ((NwOf P.nData P.wgt - 1 : ℕ) : ℝ) := by
      rw [Nat.cast_sub hw1]
      norm_num
    rw [h4]
    exact_mod_cast key
  have hNpR : NpR P = (NwOf P.nData P.wgt : ℝ) * ((NwOf P.nData P.wgt : ℝ) - 1) / 2 :=
    rfl
  constructor
  · rw [hNpR]
    linarith
  · rw [hNpR]
    intro heq
    nlinarith
  
theorem claim_C3_dof_witness : 1 ≤ NpR In3 - (In3.dim : ℝ) ∧ NpR In3 ≠ (In3.dim : ℝ) :=
  claim_C3_dof In3 (by norm_num) (by rw [In3_Nw])

/-- C4: the routine errors, before any computation, exactly when one of
the five validation conditions holds, and the exception class of each
condition is the one documented (IndexError for the two shape mismatches,
ValueError for the sensor-count, dimension and nonzero-weight checks);
when none holds the call returns its outputs. -/
theorem claim_C4_validation (P : In) :
    ((∃ o, run P = Except.ok o) ↔
      (P.nData = P.n ∧ P.dim + 1 ≤ P.n ∧ 2 ≤ P.dim ∧ P.dim ≤ 3 ∧
        ∀ w, P.wgt = some w → w.length = P.n ∧ P.dim + 1 ≤ countNonzero w))
    ∧ (P.nData ≠ P.n → run P = Except.error PyErr.indexError)
    ∧ (P.nData = P.n → P.n < P.dim + 1 → run P = Except.error PyErr.valueError)
    ∧ (P.nData = P.n → P.dim + 1 ≤ P.n → (P.dim < 2 ∨ 3 < P.dim) →
        run P = Except.error PyErr.valueError)
    ∧ (∀ w, P.wgt = some w → P.nData = P.n → P.dim + 1 ≤ P.n → 2 ≤ P.dim →
        P.dim ≤ 3 → w.length ≠ P.n → run P = Except.error PyErr.indexError)
    ∧ (∀ w, P.wgt = some w → P.nData = P.n → P.dim + 1 ≤ P.n → 2 ≤ P.dim →
        P.dim ≤ 3 → w.length = P.n → countNonzero w < P.dim + 1 →
        run P = Except.error PyErr.valueError) := by
  refine ⟨?_, ?_, ?_, ?_, ?_, ?_⟩
  · rw [run_ok_iff, validate_ok_iff]
  · intro h
    rw [run_err_iff]
    exact validate_err_shape _ _ _ _ h
  · intro h1 h2
    rw [run_err_iff]
    exact validate_err_sensors _ _ _ _ h1 h2
  · intro h1 h2 h3
    rw [run_err_iff]
    exact validate_err_dim _ _ _ _ h1 h2 h3
  · intro w hw h1 h2 h3 h4 h5
    rw [run_err_iff, hw]
    exact validate_err_wlen _ _ _ _ h1 h2 h3 h4 (by omega)
  · intro w hw h1 h2 h3 h4 h5 h6
    rw [run_err_iff, hw]
    exact validate_err_wcount _ _ _ _ h1 h2 h3 h4 (by omega) h6

theorem claim_C4_validation_witness :
    (∃ o, run In0 = Except.ok o)
    ∧ run { In0 with nData := 4 } = Except.error PyErr.indexError := by
  constructor
  · exact (claim_C4_validation In0).1.mpr
      ⟨rfl, by norm_num, by norm_num, by norm_num, fun w hw => Option.noConfusion hw⟩
  · exact (claim_C4_validation { In0 with nData := 4 }).2.1 (by norm_num)

/-- C5: the pair index set has size n(n-1)/2, contains exactly the pairs
(i,j) with i < j < n, is emitted in strictly increasing lexicographic
order (outer index ascending, inner index ascending) — and is the unique
such list — and the k-th co-array column and pairwise weight are the
coordinate difference and weight product of the k-th pair. -/
theorem claim_C5_pair_enumeration (P : In) :
    NN P = P.n * (P.n - 1) / 2
    ∧ (∀ p : ℕ × ℕ, p ∈ pairs P.n ↔ p.1 < p.2 ∧ p.2 < P.n)
    ∧ (pairs P.n).Pairwise pairLex
    ∧ (∀ L : List (ℕ × ℕ), L.Pairwise pairLex →
        (∀ p, p ∈ L ↔ p.1 < p.2 ∧ p.2 < P.n) → L = pairs P.n)
    ∧ (∀ k d, xijM P d k = P.rij d (pairI P.n k) - P.rij d (pairJ P.n k))
    ∧ (∀ k, Wv P k = wgtv P.wgt (pairI P.n k) * wgtv P.wgt (pairJ P.n k)) := by
  refine ⟨pairs_length P.n, mem_pairs P.n, pairs_sorted P.n, ?_,
    fun k d => rfl, fun k => rfl⟩
  intro L hL hm
  exact sorted_unique L (pairs P.n) hL (pairs_sorted P.n)
    fun p => (hm p).trans (mem_pairs P.n p).symm

theorem claim_C5_pair_enumeration_witness :
    ([(0, 1), (0, 2), (0, 3), (1, 2), (1, 3), (2, 3)] : List (ℕ × ℕ)) = pairs 4 := by
  refine (claim_C5_pair_enumeration In5).2.2.2.1 _ (by decide) ?_
  rintro ⟨a, b⟩
  simp only [List.mem_cons, List.mem_singleton, Prod.mk.injEq, List.not_mem_nil, or_false]
  constructor
  · rintro (⟨rfl, rfl⟩ | ⟨rfl, rfl⟩ | ⟨rfl, rfl⟩ | ⟨rfl, rfl⟩ | ⟨rfl, rfl⟩ | ⟨rfl, rfl⟩) <;>
      norm_num
  · rintro ⟨h1, h2⟩
    omega

/-- C6: a zero weight on sensor t forces cmax to 0 at every pair index
involving t, and replacing the data column of sensor t by arbitrary
values leaves the returned slowness vector unchanged. -/
theorem claim_C6_weight_exclusion (P : In) (dataN : ℕ → ℕ → ℝ) (t : ℕ)
    (ht : wgtv P.wgt t = 0)
    (hd : ∀ l c, c ≠ t → dataN l c = P.data l c) :
    (∀ k, (pairI P.n k = t ∨ pairJ P.n k = t) → (runOut P).cmax k = 0)
    ∧ (∀ a, (runOut { P with data := dataN }).s a = (runOut P).s a) := by
  constructor
  · intro k hk
    show cmaxOut P k = 0
    rw [cmaxOut, if_pos (Wv_zero_of_pair P t k ht hk)]
  · intro a
    show sFun { P with data := dataN } a = sFun P a
    simp only [sFun, (excluded_core P dataN t ht hd).2]

theorem claim_C6_weight_exclusion_witness :
    (runOut In6).cmax 1 = 0
    ∧ (runOut { In6 with data := fun _ c => if c = 2 then 37 else 1 }).s 0
      = (runOut In6).s 0 := by
  have h := claim_C6_weight_exclusion In6 (fun _ c => if c = 2 then 37 else 1) 2
    (by norm_num [wgtv, List.getD]) (fun l c hc => by simp [hc])
  exact ⟨h.1 1 (by right; decide), h.2 0⟩

/-- C7: for a pair with nonzero pairwise weight whose two traces are
identical with positive energy, the normalized cross-correlation column
equals 1 at the zero-lag position (index m-1 of the full correlation). -/
theorem claim_C7_autocorr_unit (P : In) (k : ℕ) (hW : Wv P k ≠ 0)
    (hid : ∀ t, P.data t (pairI P.n k) = P.data t (pairJ P.n k))
    (hE : 0 < energy P.m (fun t => P.data t (pairI P.n k))) :
    cij P k (P.m - 1) = 1 := by
  have hfj : (fun t => P.data t (pairJ P.n k)) = (fun t => P.data t (pairI P.n k)) :=
    funext fun t => (hid t).symm
  rw [cij, if_pos hW, hfj]
  have hcorr : corrFull P.m (fun t => P.data t (pairI P.n k))
      (fun t => P.data t (pairI P.n k)) (P.m - 1)
      = energy P.m (fun t => P.data t (pairI P.n k)) := by
    rw [corrFull, energy]
    apply Finset.sum_congr rfl
    intro t ht
    simp only [Finset.mem_range] at ht
    rw [if_pos (by omega : P.m - 1 ≤ t + (P.m - 1) ∧ t ≤ P.m - 1)]
    have hidx : t + (P.m - 1) - (P.m - 1) = t := by omega
    rw [hidx]
  rw [hcorr, Real.sqrt_mul_self (le_of_lt hE), div_self (ne_of_gt hE)]

theorem claim_C7_autocorr_unit_witness : cij In0 0 (In0.m - 1) = 1 :=
  claim_C7_autocorr_unit In0 0 (by norm_num [Wv, wgtv]) (fun t => rfl)
    (by norm_num [energy, Finset.sum_range_succ])

/-- C8: for any data, rij and hz that pass validation, a call with `wgt`
omitted returns the same tuple, component for component, as a call with
`wgt` explicitly the all-ones vector of length n. -/
theorem claim_C8_default_weights (P : In) (hwgt : P.wgt = none)
    (h1 : P.nData = P.n) (h2 : P.dim + 1 ≤ P.n) (h3 : 2 ≤ P.dim)
    (h4 : P.dim ≤ 3) :
    run { P with wgt := some (List.replicate P.n 1) } = run P := by
  have hvP : validate P.nData P.n P.dim P.wgt = Except.ok () := by
    rw [hwgt, validate.eq_def, if_neg (by omega), if_neg (by omega),
      if_neg (by omega)]
  have hvQ : validate P.nData P.n P.dim (some (List.replicate P.n 1))
      = Except.ok () := by
    rw [validate.eq_def, if_neg (by omega), if_neg (by omega), if_neg (by omega)]
    show (if (List.replicate P.n (1 : ℝ)).length ≠ P.nData then _ else _) = _
    rw [if_neg (by rw [List.length_replicate]; omega),
      if_neg (by rw [countNonzero_replicate_one]; omega)]
  show (validate P.nData P.n P.dim (some (List.replicate P.n 1))).map
      (fun _ => runOut { P with wgt := some (List.replicate P.n 1) })
    = (validate P.nData P.n P.dim P.wgt).map (fun _ => runOut P)
  rw [hvP, hvQ]
  show Except.ok (runOut { P with wgt := some (List.replicate P.n 1) })
    = Except.ok (runOut P)
  rw [runOut_ones P hwgt h1 h2 h3]

theorem claim_C8_default_weights_witness :
    run { In0 with wgt := some (List.replicate In0.n 1) } = run In0 :=
  claim_C8_default_weights In0 rfl rfl (by norm_num) (by norm_num) (by norm_num)

/-- C9: the call is a deterministic pure function of its (mathematical)
arguments: the contents of the uninitialized correlation buffer — the
only non-argument state the routine reads — never influence any output
component, so two calls on equal arguments return equal tuples. -/
theorem claim_C9_deterministic (P : In) (junk1 junk2 : ℕ → ℕ → ℝ) :
    run { P with junk := junk1 } = run { P with junk := junk2 } := by
  show (validate P.nData P.n P.dim P.wgt).map
      (fun _ => runOut { P with junk := junk1 })
    = (validate P.nData P.n P.dim P.wgt).map
      (fun _ => runOut { P with junk := junk2 })
  rw [runOut_junk P junk1, runOut_junk P junk2]

/-- C10: multiplying every weight by a positive constant c leaves the
slowness vector, the velocity and the azimuth unchanged (the weight
matrix scales by c^2 and cancels through the normal equations), while
the returned tau scales by c^2. -/
theorem claim_C10_weight_scaling (P : In) (w : List ℝ) (c : ℝ)
    (hw : P.wgt = some w) (hc : 0 < c) (hdim : 2 ≤ P.dim)
    (hnz : ∀ i, i < P.n → wgtv P.wgt i ≠ 0) :
    (∀ a, (runOut { P with wgt := some (w.map fun x => c * x) }).s a
      = (runOut P).s a)
    ∧ (runOut { P with wgt := some (w.map fun x => c * x) }).vel = (runOut P).vel
    ∧ (runOut { P with wgt := some (w.map fun x => c * x) }).az = (runOut P).az
    ∧ (∀ k, (runOut { P with wgt := some (w.map fun x => c * x) }).tau k
      = c ^ 2 * (runOut P).tau k) := by
  obtain ⟨hWv, hcij, htaup, hs⟩ := scaling_core P w c hw (ne_of_gt hc) (by omega)
  have hsf : ∀ a, sFun { P with wgt := some (w.map fun x => c * x) } a
      = sFun P a := by
    intro a
    simp only [sFun, hs]
  refine ⟨hsf, ?_, ?_, htaup⟩
  · show velOut { P with wgt := some (w.map fun x => c * x) } = velOut P
    show 1 / norm2 P.dim (sFun { P with wgt := some (w.map fun x => c * x) })
      = 1 / norm2 P.dim (sFun P)
    rw [norm2, norm2]
    have hsum : ∑ a ∈ Finset.range P.dim,
        sFun { P with wgt := some (w.map fun x => c * x) } a *
          sFun { P with wgt := some (w.map fun x => c * x) } a
      = ∑ a ∈ Finset.range P.dim, sFun P a * sFun P a :=
      Finset.sum_congr rfl fun a _ => by rw [hsf]
    rw [hsum]
  · show azOut { P with wgt := some (w.map fun x => c * x) } = azOut P
    rw [azOut, azOut, hsf, hsf]

theorem claim_C10_weight_scaling_witness :
    (runOut { In3 with wgt := some (([1, 1, 1] : List ℝ).map fun x => 2 * x) }).az
      = (runOut In3).az := by
  have h := claim_C10_weight_scaling In3 [1, 1, 1] 2 rfl (by norm_num)
    (by norm_num) ?_
  · exact h.2.2.1
  · intro i hi
    show wgtv (some [1, 1, 1]) i ≠ 0
    interval_cases i <;> norm_num [wgtv, List.getD]

end ArrayProcessing
